import Mathlib

/-!
Verification of the asmimg tile/palette conversion core.

Shallow embedding of `src/asmimg/formats/agb.rs` and
`src/awsmimg/conversion.rs`.

Modelling conventions, used uniformly below:

* Machine integers (`u8`, `u16`, `u32`, `usize`) are embedded as `Nat`;
  truncating masks and shifts of the source appear literally as
  `&&&`, `|||`, `<<<`, `>>>` on `Nat`.
* The source's `f32` computations are modelled in two ways.  Where the
  result is sensitive to rounding (the `tileval * (255/maxcol)` scaling
  in `lumaPixel`), binary32 arithmetic is modelled bit-exactly:
  mantissa-exponent pairs with 24-bit round-to-nearest-ties-to-even
  (`roundF32Ratio`, `roundF32Int`), no overflow or subnormals in the
  reachable range.  Elsewhere (`value/imgmax * 255` with `imgmax = 255`
  on `u8` samples, and `gray/imgmax * maxcol` at the concrete inputs
  used below) the f32 result coincides with the exact rational value,
  and the `Nat` floor division `a * c / b` is used directly.
* A Rust panic (`Vec` index out of bounds, `Option::unwrap` on `None`)
  is modelled by an `Option` result being `none`; fallible numeric
  casts are guarded explicitly where the source can panic.
* The output sink (`W: Write`) is modelled by returning the list of
  bytes written; sink I/O failure (which the source merely propagates)
  is not modelled.
* Rust's `/` and `%` on integers panic on a zero divisor, while `Nat`
  division by zero yields `0`; every theorem below therefore carries
  positivity hypotheses (`0 < tw`, `0 < th`, ...) for divisors that
  the source assumes nonzero.
-/

namespace Asmimg

/-- An RGBA color sample, the `Rgba<T>` of the source instantiated at
`T = u8`: four channels, each in `0 ..= imgmax` with `imgmax = 255`. -/
structure Rgba where
  r : Nat
  g : Nat
  b : Nat
  a : Nat
deriving DecidableEq, Repr

/-- The 16-bit color word computed for one palette entry by
`encode_palette` (agb.rs lines 14-22), with the f32 channel scaling
modelled exactly:
`r = (rgba[0]/imgmax*255) as u16` becomes `c.r * 255 / imgmax`, and the
`use_alpha` branch `(rgba[3]/imgmax) as u16` becomes `c.a / imgmax`.
The packing expression is transcribed with Rust's operator precedence,
where `<<` binds tighter than `&`, which binds tighter than `|`:
`a & 0x80 << 8 | b & 0xF8 << 7 | g & 0xF8 << 2 | r >> 3` parses as
`(a &&& (0x80 <<< 8)) ||| (b &&& (0xF8 <<< 7)) ||| (g &&& (0xF8 <<< 2)) ||| (r >>> 3)`. -/
def encode_palette_word (use_alpha : Bool) (imgmax : Nat) (c : Rgba) : Nat :=
  let r := c.r * 255 / imgmax
  let g := c.g * 255 / imgmax
  let b := c.b * 255 / imgmax
  let a := if use_alpha then c.a / imgmax else 0
  (a &&& (0x80 <<< 8)) ||| (b &&& (0xF8 <<< 7)) ||| (g &&& (0xF8 <<< 2)) ||| (r >>> 3)

/-- `encode_palette` (agb.rs lines 9-30): for each color the 16-bit
word is emitted as two bytes, low byte `enc_color & 0xFF` first, then
high byte `(enc_color >> 8) & 0xFF`.  The returned list is the byte
stream written to the sink. -/
def encode_palette (use_alpha : Bool) (imgmax : Nat) (palette : List Rgba) : List Nat :=
  palette.flatMap (fun c =>
    let w := encode_palette_word use_alpha imgmax c
    [(w >>> 0) &&& 0xFF, (w >>> 8) &&& 0xFF])

/-- A grayscale-with-alpha input image, the `GenericImage` collaborator
of `indexes_from_luma` instantiated at `LumaA<u8>` pixels:
`pix x y = (luma, alpha)` with both samples in `0 ..= 255`.  For such
pixels `to_luma_alpha` is the identity. -/
structure GrayImage where
  width : Nat
  height : Nat
  pix : Nat → Nat → Nat × Nat

/-- The pixel coordinates yielded by `image.pixels()`: row-major order,
`x` varying fastest. -/
def rasterPixels (img : GrayImage) : List (Nat × Nat) :=
  (List.range img.height).flatMap (fun y => (List.range img.width).map (fun x => (x, y)))

/-- The destination index computed by `indexes_from_luma`
(conversion.rs lines 42-48).  Transcribed exactly: the source divides
and reduces the y coordinate by `tw` (not `th`):
`ty = iy / tw`, `py = iy % tw`. -/
def lumaOutIdx (width tw th x y : Nat) : Nat :=
  let tx := x / tw
  let px := x % tw
  let ty := y / tw
  let py := y % tw
  let itile := ty * (width / tw) + tx
  itile * (tw * th) + py * tw + px

/-- One iteration of the pixel loop of `indexes_from_luma`
(conversion.rs lines 37-55).  The accumulator is `none` once a
preceding iteration has panicked.  The `Vec::resize` appears as the
zero-padding append; the unconditional store `out[outidx] = ...`
panics (yields `none`) when `outidx` is still out of bounds, which
happens exactly when the pixel is transparent and its index lies past
the end of the buffer.  The stored value models
`(gray/imgmax * maxcol).floor()` with `imgmax = 255` exactly. -/
def lumaStep (img : GrayImage) (maxcol tw th : Nat)
    (acc : Option (List Nat)) (xy : Nat × Nat) : Option (List Nat) :=
  match acc with
  | none => none
  | some out =>
    let gray := (img.pix xy.1 xy.2).1
    let alpha := (img.pix xy.1 xy.2).2
    let outidx := lumaOutIdx img.width tw th xy.1 xy.2
    let out := if outidx ≥ out.length ∧ alpha ≠ 0
      then out ++ List.replicate (outidx + 1 - out.length) 0 else out
    if outidx < out.length then some (out.set outidx (gray * maxcol / 255)) else none

/-- `indexes_from_luma` (conversion.rs lines 25-58): fold the pixel
loop over the image in raster order, starting from an empty buffer.
`none` models a panic. -/
def indexes_from_luma (img : GrayImage) (maxcol : Nat) (tsize : Nat × Nat) :
    Option (List Nat) :=
  (rasterPixels img).foldl (lumaStep img maxcol tsize.1 tsize.2) (some [])

/-- The `ImageBuffer<LumaA<u8>, _>` produced by `luma_from_indexes`:
dimensions plus the pixel closure.  `pix x y = none` models a panic of
the closure at that pixel (Rust's `ImageBuffer::from_fn` evaluates the
closure eagerly for every `x < iw`, `y < ih`); `pix` is only
meaningful on that grid. -/
structure LumaAImage where
  iw : Nat
  ih : Nat
  pix : Nat → Nat → Option (Nat × Nat)

/-- Exact-real model of `(n as f32).sqrt().ceil() as u32`: the least
`s` with `n ≤ s * s`. -/
def ceilSqrt (n : Nat) : Nat :=
  (((List.range (n + 1)).find? (fun s => n ≤ s * s)).getD 0)

/-- Exact-real model of `(n as f32 / d as f32).ceil() as u32`.  For
`d = 0` the source reaches this expression only with `n = 0`, where
`0.0 / 0.0` is NaN and the saturating cast yields 0. -/
def ceilDivNat (n d : Nat) : Nat :=
  if d = 0 then 0 else (n + d - 1) / d

/-- Fuel-driven floor of the base-2 logarithm (structural recursion so
the kernel can evaluate it). -/
def log2Fuel : Nat → Nat → Nat
  | 0, _ => 0
  | fuel + 1, n => if 2 ≤ n then log2Fuel fuel (n / 2) + 1 else 0

/-- The floor of the base-2 logarithm of a positive `n` (0 for
`n = 0`): the unique `k` with `2 ^ k ≤ n < 2 ^ (k + 1)`. -/
def natLog2 (n : Nat) : Nat := log2Fuel n n

/-- Round `m0 + r / den` (with `0 ≤ r < den`) to the nearest integer,
ties to even: the rounding rule of IEEE-754 arithmetic. -/
def rnTiesEven (m0 r den : Nat) : Nat :=
  if 2 * r < den then m0
  else if den < 2 * r then m0 + 1
  else if m0 % 2 = 0 then m0 else m0 + 1

/-- Round the value `P * 2 ^ E` to binary32 precision (24-bit
mantissa, round to nearest, ties to even), returning a
mantissa-exponent pair of the resulting float.  This is exactly the
rounding an f32 multiplication performs on the exact product of its
operands; overflow and subnormals do not occur in the reachable
range. -/
def roundF32Int (P : Nat) (E : Int) : Nat × Int :=
  if P = 0 then (0, 0)
  else
    let L := natLog2 P
    if L ≤ 23 then (P * 2 ^ (23 - L), E - (23 - L))
    else
      let d := L - 23
      (rnTiesEven (P / 2 ^ d) (P % 2 ^ d) (2 ^ d), E + d)

/-- Round the ratio `a / b` (with `b > 0`) to binary32 precision, as a
mantissa-exponent pair: the result of an f32 division (or of an exact
integer-to-f32 conversion when `b = 1`).  The exponent is first fixed
by the floor of `log2 (a / b)`, then the 24-bit mantissa is rounded to
nearest, ties to even. -/
def roundF32Ratio (a b : Nat) : Nat × Int :=
  if a = 0 then (0, 0)
  else
    let e : Int := (if b ≤ a then (natLog2 (a / b) : Int)
      else
        let k := natLog2 (b / a)
        if a * 2 ^ k = b then -(k : Int) else -(k : Int) - 1) - 23
    let nd := if 0 ≤ e then (a, b * 2 ^ e.toNat) else (a * 2 ^ (-e).toNat, b)
    (rnTiesEven (nd.1 / nd.2) (nd.1 % nd.2) nd.2, e)

/-- Truncation toward zero of the nonnegative float `m * 2 ^ e`: what
`as`-casting / `NumCast` truncation computes on an f32 value. -/
def truncF32 (me : Nat × Int) : Nat :=
  if 0 ≤ me.2 then me.1 * 2 ^ me.2.toNat else me.1 / 2 ^ (-me.2).toNat

/-- The per-pixel closure of `luma_from_indexes` (conversion.rs lines
105-126).  In range, the displayed value models the source's
`tileval * colscale` with `colscale = 255f32 / maxcol`, both f32
operations rounded bit-exactly (`roundF32Ratio` for the division and
the operand conversions, `roundF32Int` for the product), truncated by
the `u8` cast; the cast panics (`none`) when the truncated value
exceeds 255 or when `maxcol = 0` (where `colscale` is infinite).  Out
of range, the pixel is fully transparent `(0, 0)`. -/
def lumaPixel (data : List Nat) (maxcol tw th iw x y : Nat) : Option (Nat × Nat) :=
  let tx := x / tw
  let ty := y / th
  let px := x % tw
  let py := y % th
  let tileid := ty * (iw / tw) + tx
  let tilepx := py * tw + px
  let tileidx := tileid * (tw * th) + tilepx
  if tileidx < data.length then
    if maxcol = 0 then none
    else
      let tileval := data.getD tileidx 0
      let colscale := roundF32Ratio 255 maxcol
      let tv := roundF32Ratio tileval 1
      let v := truncF32 (roundF32Int (tv.1 * colscale.1) (tv.2 + colscale.2))
      if v ≤ 255 then some (v, 255) else none
  else some (0, 0)

/-- `luma_from_indexes` (conversion.rs lines 77-127): the two shape
checks, the computed image size for `isize = none`, and the pixel
closure.  `none` is the source's `None`. -/
def luma_from_indexes (data : List Nat) (maxcol : Nat) (tsize : Nat × Nat)
    (isize : Option (Nat × Nat)) : Option LumaAImage :=
  let tw := tsize.1
  let th := tsize.2
  let tstride := tw * th
  let tcount := data.length / tstride
  if tcount * tstride ≠ data.length then none
  else
    let wh := match isize with
      | some (w, h) => (w, h)
      | none =>
        let iw := ceilSqrt tcount * tw
        (iw, ceilDivNat tcount (iw / tw) * th)
    if wh.1 % tw ≠ 0 ∨ wh.2 % th ≠ 0 then none
    else some ⟨wh.1, wh.2, fun x y => lumaPixel data maxcol tw th wh.1 x y⟩

/-- `Primitive::to_u8().unwrap()`: succeeds exactly on sample values
that fit in a byte. -/
def to_u8 (n : Nat) : Option Nat :=
  if n ≤ 255 then some n else none

/-- Modelled from the spec: `TileChunkIterator` lives in
`asmimg::tiles`, which is not among the provided sources.  Spec
section 4.1: tile `t`, local position `(px, py)` reads absolute source
index `((t / (width/tw)) * th + py) * width + ((t % (width/tw)) * tw + px)`;
within a tile, samples are emitted in row-major pixel order. -/
def tileChunk (data : List Nat) (tw th width t : Nat) : List Nat :=
  (List.range th).flatMap (fun py =>
    (List.range tw).map (fun px =>
      data.getD (((t / (width / tw)) * th + py) * width
        + ((t % (width / tw)) * tw + px)) 0))

/-- Modelled from the spec: the sequence of tiles yielded by
`TileChunkIterator::new(data, tw, th, width)`.  Spec section 4.1:
tiles are enumerated in row-major tile order and the output length
equals the input length, so there are `len / (tw*th)` tiles. -/
def tileChunks (data : List Nat) (tw th width : Nat) : List (List Nat) :=
  (List.range (data.length / (tw * th))).map (tileChunk data tw th width)

/-- The inner loop of `AGB4Encoder::encode_indexes` (agb.rs lines
73-76): `tile.chunks(2)` with, per chunk, the byte
`byte[0].to_u8().unwrap() & 0x0F | (byte[1].to_u8().unwrap() & 0x0F) << 4`.
A trailing 1-sample chunk would index `byte[1]` out of bounds
(`none`); so would an over-wide sample. -/
def packLowHigh : List Nat → Option (List Nat)
  | [] => some []
  | [_] => none
  | b0 :: b1 :: rest => do
    let v0 ← to_u8 b0
    let v1 ← to_u8 b1
    let l ← packLowHigh rest
    pure (((v0 &&& 0x0F) ||| ((v1 &&& 0x0F) <<< 4)) :: l)

/-- The spec's wording of the 4bpp packing (section 4.3), for
comparison with `agb4_encode_indexes`: each output byte packs two
consecutive tile-ordered samples masked to 4 bits, first sample in the
low nibble, second in the high nibble. -/
def specPairs : List Nat → List Nat
  | [] => []
  | [_] => []
  | b0 :: b1 :: rest => ((b0 &&& 0x0F) ||| ((b1 &&& 0x0F) <<< 4)) :: specPairs rest

/-- `AGB4Encoder::encode_indexes` (agb.rs lines 69-80): tile size
8 by 8, bytes appended to the sink tile by tile. -/
def agb4_encode_indexes (data : List Nat) (width : Nat) : Option (List Nat) :=
  (tileChunks data 8 8 width).foldl
    (fun acc tile => do
      let bs ← acc
      let nb ← packLowHigh tile
      pure (bs ++ nb))
    (some [])

/-- The body of the per-tile loop of `AGB8Encoder::encode_indexes`
(agb.rs lines 118-123): `out[i] = byte.to_u8().unwrap() & 0xFF` for
each tile sample, then `out[0 .. tsize*tsize]` is written; the tile
has exactly `tsize*tsize` samples, so the written slice is the masked
tile. -/
def agb8_tile_bytes (tile : List Nat) : Option (List Nat) :=
  tile.mapM (fun b => (to_u8 b).map (· &&& 0xFF))

/-- `AGB8Encoder::encode_indexes` (agb.rs lines 114-127), with
`tsize = 8` for `new_tiled` and `tsize = 1` for `new_chunky`. -/
def agb8_encode_indexes (tsize : Nat) (data : List Nat) (width : Nat) : Option (List Nat) :=
  (tileChunks data tsize tsize width).foldl
    (fun acc tile => do
      let bs ← acc
      let nb ← agb8_tile_bytes tile
      pure (bs ++ nb))
    (some [])

/-- Sanity check against spec section 8: packing RGBA (255,0,0,255)
with `use_alpha = false` yields red field 31, alpha bit clear. -/
theorem encode_palette_red_max :
    encode_palette false 255 [⟨255, 0, 0, 255⟩] = [31, 0] := by decide

/-- A number below `2 ^ k` is bitwise disjoint from a mask whose set
bits all lie at or above position `k`. -/
lemma and_eq_zero_of_bounds {b m k : Nat} (hb : b < 2 ^ k)
    (hm : ∀ i, i < k → m.testBit i = false) : b &&& m = 0 := by
  apply Nat.eq_of_testBit_eq
  intro i
  simp only [Nat.testBit_and, Nat.zero_testBit]
  by_cases hi : i < k
  · simp [hm i hi]
  · have hbi : b.testBit i = false := by
      apply Nat.testBit_lt_two_pow
      exact lt_of_lt_of_le hb (Nat.pow_le_pow_right (by norm_num) (Nat.le_of_not_lt hi))
    simp [hbi]

/-- Normalized channels are at most 255 when the raw channel is at
most `imgmax`. -/
lemma norm_channel_le {ch imgmax : Nat} (him : 0 < imgmax) (h : ch ≤ imgmax) :
    ch * 255 / imgmax ≤ 255 := by
  calc ch * 255 / imgmax ≤ imgmax * 255 / imgmax :=
        Nat.div_le_div_right (Nat.mul_le_mul_right _ h)
    _ = 255 := Nat.mul_div_cancel_left 255 him

/-- Every palette word actually produced is below 2^10: the blue term
`b &&& 0x7C00` and the alpha term `a &&& 0x8000` vanish on in-range
channels, leaving only `(g &&& 0x3E0) ||| (r >>> 3)`. -/
lemma encode_palette_word_lt {use_alpha : Bool} {imgmax : Nat} {c : Rgba}
    (him : 0 < imgmax) (hr : c.r ≤ imgmax) (_hg : c.g ≤ imgmax)
    (hb : c.b ≤ imgmax) (ha : c.a ≤ imgmax) :
    encode_palette_word use_alpha imgmax c < 2 ^ 10 := by
  unfold encode_palette_word
  have hbz : c.b * 255 / imgmax &&& (0xF8 <<< 7) = 0 := by
    apply and_eq_zero_of_bounds (k := 10)
    · exact lt_of_le_of_lt (norm_channel_le him hb) (by norm_num)
    · decide
  have haz : (if use_alpha then c.a / imgmax else 0) &&& (0x80 <<< 8) = 0 := by
    apply and_eq_zero_of_bounds (k := 1)
    · cases use_alpha with
      | false => simp
      | true =>
        simp only [if_true]
        have : c.a / imgmax ≤ imgmax / imgmax := Nat.div_le_div_right ha
        have : c.a / imgmax ≤ 1 := le_trans this (le_of_eq (Nat.div_self him))
        omega
    · decide
  simp only [haz, hbz, Nat.zero_or]
  apply Nat.or_lt_two_pow
  · exact lt_of_le_of_lt (Nat.and_le_right) (by decide)
  · have h1 : c.r * 255 / imgmax ≤ 255 := norm_channel_le him hr
    rw [Nat.shiftRight_eq_div_pow]
    norm_num
    omega

/-- C10: for every input palette and both settings of `use_alpha`,
every 16-bit word produced by `encode_palette_word` (and emitted by
`encode_palette` as two bytes) has bit 15 clear and bits 14-10 clear,
so its high output byte `(w >>> 8) &&& 0xFF` is at most 3. -/
theorem encode_palette_word_high_bits (use_alpha : Bool) (imgmax : Nat)
    (palette : List Rgba) (him : 0 < imgmax)
    (hch : ∀ c ∈ palette, c.r ≤ imgmax ∧ c.g ≤ imgmax ∧ c.b ≤ imgmax ∧ c.a ≤ imgmax) :
    ∀ c ∈ palette,
      encode_palette_word use_alpha imgmax c &&& 0x8000 = 0 ∧
      encode_palette_word use_alpha imgmax c &&& 0x7C00 = 0 ∧
      (encode_palette_word use_alpha imgmax c >>> 8) &&& 0xFF ≤ 3 := by
  intro c hc
  obtain ⟨hr, hg, hb, ha⟩ := hch c hc
  have hw : encode_palette_word use_alpha imgmax c < 2 ^ 10 :=
    encode_palette_word_lt him hr hg hb ha
  refine ⟨?_, ?_, ?_⟩
  · exact and_eq_zero_of_bounds hw (by decide)
  · exact and_eq_zero_of_bounds hw (by decide)
  · have : encode_palette_word use_alpha imgmax c >>> 8 ≤ 3 := by
      simp only [Nat.shiftRight_eq_div_pow]
      omega
    exact le_trans Nat.and_le_left this

/-- Witness for C10 at a concrete palette. -/
theorem encode_palette_word_high_bits_witness :
    (0 < 255 ∧ ∀ c ∈ [Rgba.mk 255 128 64 255], c.r ≤ 255 ∧ c.g ≤ 255 ∧ c.b ≤ 255 ∧ c.a ≤ 255) ∧
    ∀ c ∈ [Rgba.mk 255 128 64 255],
      encode_palette_word true 255 c &&& 0x8000 = 0 ∧
      encode_palette_word true 255 c &&& 0x7C00 = 0 ∧
      (encode_palette_word true 255 c >>> 8) &&& 0xFF ≤ 3 :=
  ⟨⟨by decide, by decide⟩,
   encode_palette_word_high_bits true 255 [Rgba.mk 255 128 64 255] (by decide) (by decide)⟩

/-- C1 (divergence witness): the source packs the blue channel as
`b & (0xF8 << 7)`, i.e. `b &&& 0x7C00`, which is zero for every
8-bit-normalized sample, so pure blue (0,0,255,255) encodes to the
bytes [0x00, 0x00] instead of the claimed [0x00, 0x7C]
(word `0x7C00` = top 5 bits of blue in bits 14-10). -/
theorem encode_palette_blue_dropped :
    encode_palette false 255 [⟨0, 0, 255, 255⟩] = [0x00, 0x00] := by decide

/-- C6 (divergence witness): with `use_alpha = true` the source
normalizes alpha to `(alpha/imgmax) as u16`, which is 1 for a fully
opaque sample, and then masks it with `0x80 << 8 = 0x8000`, so bit 15
is never set: fully opaque black encodes to [0x00, 0x00] instead of
the claimed [0x00, 0x80]. -/
theorem encode_palette_alpha_bit_never_set :
    encode_palette true 255 [⟨0, 0, 0, 255⟩] = [0x00, 0x00] := by decide

/-- Reproduces the shape of the repository's own round-trip test
(conv_roundtrip_test), scaled down: a fully opaque square-tiled image
round-trips through `indexes_from_luma` and `luma_from_indexes`. -/
theorem roundtrip_square_tile_example :
    indexes_from_luma ⟨2, 2, fun x y => (2 * y + x, 255)⟩ 255 (2, 2)
      = some [0, 1, 2, 3] ∧
    (luma_from_indexes [0, 1, 2, 3] 255 (2, 2) (some (2, 2))).map
        (fun img => (img.pix 0 0, img.pix 1 0, img.pix 0 1, img.pix 1 1))
      = some (some (0, 255), some (1, 255), some (2, 255), some (3, 255)) := by
  constructor <;> rfl

/-- C3 (divergence witness): for the 1-wide, 2-tall image with tile
size (tw, th) = (1, 2), the source stores the pixel at (x, y) = (0, 1)
at destination index `lumaOutIdx 1 1 2 0 1 = 2` (it reduces the y
coordinate by `tw`), while the claimed tile-address scheme
`((y / th) * (width / tw) + x / tw) * (tw * th) + (y % th) * tw + x % tw`
evaluates to 1 there; so the buffer comes back as [7, 0, 9] rather
than [7, 9]. -/
theorem indexes_from_luma_vertical_addr_uses_tw :
    indexes_from_luma ⟨1, 2, fun _ y => (if y = 0 then 7 else 9, 255)⟩ 255 (1, 2)
      = some [7, 0, 9] ∧
    lumaOutIdx 1 1 2 0 1 = 2 ∧
    (1 / 2 * (1 / 1) + 0 / 1) * (1 * 2) + 1 % 2 * 1 + 0 % 1 = 1 := by
  refine ⟨rfl, rfl, rfl⟩

/-- C2 (divergence witness): for the fully opaque 1-by-2 grayscale
image with tile size (1, 2), whose dimensions the tile size divides,
`indexes_from_luma` mis-addresses the second pixel (see
`lumaOutIdx`) and produces a 3-element buffer, so the round trip
through `luma_from_indexes` yields no image at all instead of
reproducing the luminance channel. -/
theorem roundtrip_rect_tile_fails :
    indexes_from_luma ⟨1, 2, fun _ y => (if y = 0 then 10 else 20, 255)⟩ 255 (1, 2)
      = some [10, 0, 20] ∧
    luma_from_indexes [10, 0, 20] 255 (1, 2) (some (1, 2)) = none := by
  refine ⟨rfl, rfl⟩

/-- C4 (divergence witness): a single fully transparent pixel lies at
a destination index at or beyond every non-transparent pixel's index
(there are none), yet `indexes_from_luma` panics: the store
`out[outidx] = ...` runs unconditionally, and for a transparent pixel
past the end of the buffer no resize has made `outidx` addressable. -/
theorem indexes_from_luma_trailing_transparent_oob :
    indexes_from_luma ⟨1, 1, fun _ _ => (0, 0)⟩ 255 (1, 1) = none := by
  rfl

/-- The divisibility reading of the source's first shape check. -/
lemma div_mul_eq_iff_dvd (a t : Nat) :
    a / t * t = a ↔ t ∣ a := by
  constructor
  · intro h
    exact ⟨a / t, (Nat.mul_comm (a / t) t ▸ h).symm⟩
  · intro h
    exact Nat.div_mul_cancel h

/-- C5: `luma_from_indexes` returns `none` exactly when the
index-buffer length is not a multiple of the tile area `tw * th`, or
the explicitly requested dimensions are not multiples of the tile
dimensions; the dimensions the source computes itself (`isize = none`)
are always such multiples, so in every other case an image is
returned. -/
theorem luma_from_indexes_shape_check (data : List Nat) (maxcol tw th : Nat)
    (isize : Option (Nat × Nat)) (htw : 0 < tw) (hth : 0 < th) :
    (luma_from_indexes data maxcol (tw, th) isize).isSome ↔
      ((tw * th) ∣ data.length ∧
        ∀ w h, isize = some (w, h) → w % tw = 0 ∧ h % th = 0) := by
  have htt : 0 < tw * th := Nat.mul_pos htw hth
  cases isize with
  | none =>
    simp only [luma_from_indexes]
    split_ifs with h1 h2
    · simp only [Option.isSome_none, Bool.false_eq_true, false_iff]
      intro hcl
      exact h1 ((div_mul_eq_iff_dvd _ _).mpr hcl.1)
    · exfalso
      rcases h2 with h2 | h2
      · exact h2 (Nat.mul_mod_left _ _)
      · exact h2 (Nat.mul_mod_left _ _)
    · simp only [Option.isSome_some, true_iff]
      refine ⟨(div_mul_eq_iff_dvd _ _).mp (by omega), ?_⟩
      intro w h hwh
      cases hwh
  | some wh0 =>
    obtain ⟨w0, h0⟩ := wh0
    simp only [luma_from_indexes]
    split_ifs with h1 h2
    · simp only [Option.isSome_none, Bool.false_eq_true, false_iff]
      intro hcl
      exact h1 ((div_mul_eq_iff_dvd _ _).mpr hcl.1)
    · simp only [Option.isSome_none, Bool.false_eq_true, false_iff]
      intro hcl
      have := hcl.2 w0 h0 rfl
      omega
    · simp only [Option.isSome_some, true_iff]
      refine ⟨(div_mul_eq_iff_dvd _ _).mp (by omega), ?_⟩
      intro w h hwh
      injection hwh with hwh
      injection hwh with hw hh
      subst hw
      subst hh
      omega

/-- Witness for C5 at a concrete input: a 4-element buffer with 2-by-2
tiles and an explicit 2-by-2 canvas is accepted. -/
theorem luma_from_indexes_shape_check_witness :
    (0 < 2 ∧ 0 < 2) ∧
    ((luma_from_indexes [0, 1, 2, 3] 255 (2, 2) (some (2, 2))).isSome ↔
      ((2 * 2) ∣ ([0, 1, 2, 3] : List Nat).length ∧
        ∀ w h, (some (2, 2) : Option (Nat × Nat)) = some (w, h) →
          w % 2 = 0 ∧ h % 2 = 0)) :=
  ⟨⟨by decide, by decide⟩,
   luma_from_indexes_shape_check [0, 1, 2, 3] 255 2 2 (some (2, 2)) (by decide) (by decide)⟩

/-- C9 (divergence witness): the image returned for the index buffer
[7] with maxcol 7, tile size (1, 1) and explicit canvas (1, 1) shows
254 at its single (valid-position) pixel, not the claimed
`round(index / maxcol * 255) = round(7 / 7 * 255) = 255` (under any
reading of round): `255f32 / 7` rounds down to
9549531 * 2^-18 = 36.42856979..., and `7 * colscale` rounds down again
to 16711679 * 2^-16 = 254.99998474..., which the `u8` cast truncates
to 254.  The out-of-range transparent fallback and the alpha-255
opaque rendering are as claimed; the value equation is what fails. -/
theorem luma_from_indexes_scaling_off_by_one :
    (luma_from_indexes [7] 7 (1, 1) (some (1, 1))).map (fun img => img.pix 0 0)
      = some (some (254, 255)) := by decide

/-- Every tile yielded by the iterator has exactly `tw * th` samples. -/
lemma tileChunk_length (data : List Nat) (tw th width t : Nat) :
    (tileChunk data tw th width t).length = th * tw := by
  unfold tileChunk
  rw [List.length_flatMap]
  simp [Function.comp_def, List.map_const']

/-- A default-zero lookup in a list of bounded values is bounded. -/
lemma getD_le {data : List Nat} {m : Nat} (hle : ∀ d ∈ data, d ≤ m) (j : Nat) :
    data.getD j 0 ≤ m := by
  rcases Nat.lt_or_ge j data.length with hlt | hge
  · rw [List.getD_eq_getElem data 0 hlt]
    exact hle _ (List.getElem_mem hlt)
  · rw [List.getD_eq_default data 0 hge]
    exact Nat.zero_le m

/-- `packLowHigh` agrees with the spec's pairing on even-length lists
of byte-sized samples. -/
lemma packLowHigh_eq (l : List Nat) (hlen : l.length % 2 = 0)
    (hle : ∀ d ∈ l, d ≤ 255) : packLowHigh l = some (specPairs l) := by
  induction l using packLowHigh.induct with
  | case1 => rfl
  | case2 b => simp at hlen
  | case3 b0 b1 rest ih =>
    have h0 : b0 ≤ 255 := hle b0 (by simp)
    have h1 : b1 ≤ 255 := hle b1 (by simp)
    simp only [List.length_cons, Nat.succ_mod_two_eq_zero_iff,
      Nat.succ_mod_two_eq_one_iff] at hlen
    have ih' := ih hlen (fun d hd => hle d (by simp [hd]))
    simp [packLowHigh, specPairs, to_u8, h0, h1, ih']

/-- The spec pairing distributes over appending an even-length
prefix. -/
lemma specPairs_append (l1 l2 : List Nat) (hlen : l1.length % 2 = 0) :
    specPairs (l1 ++ l2) = specPairs l1 ++ specPairs l2 := by
  induction l1 using specPairs.induct with
  | case1 => simp [specPairs]
  | case2 b => simp at hlen
  | case3 b0 b1 rest ih =>
    simp only [List.length_cons, Nat.succ_mod_two_eq_zero_iff,
      Nat.succ_mod_two_eq_one_iff] at hlen
    simp [specPairs, ih hlen]

/-- The 4bpp encoder's tile loop accumulates the spec pairing of the
concatenated tiles. -/
lemma agb4_foldl_eq (tiles : List (List Nat)) (acc : List Nat)
    (hlen : ∀ t ∈ tiles, t.length % 2 = 0)
    (hle : ∀ t ∈ tiles, ∀ d ∈ t, d ≤ 255) :
    tiles.foldl
        (fun acc tile => do
          let bs ← acc
          let nb ← packLowHigh tile
          pure (bs ++ nb))
        (some acc)
      = some (acc ++ specPairs tiles.flatten) := by
  induction tiles generalizing acc with
  | nil => simp [specPairs]
  | cons t ts ih =>
    have ht : packLowHigh t = some (specPairs t) :=
      packLowHigh_eq t (hlen t (by simp)) (hle t (by simp))
    have step : (do
          let bs ← some acc
          let nb ← packLowHigh t
          pure (bs ++ nb) : Option (List Nat)) = some (acc ++ specPairs t) := by
      simp [ht]
    simp only [List.foldl_cons]
    rw [step, ih (acc ++ specPairs t) (fun u hu => hlen u (List.mem_cons_of_mem _ hu))
      (fun u hu => hle u (List.mem_cons_of_mem _ hu))]
    simp [List.flatten_cons, specPairs_append t ts.flatten (hlen t (by simp)),
      List.append_assoc]

/-- C7: the 4bpp encoder emits, for byte-sized index data, exactly the
spec's low-nibble-first pairing of the tile-ordered sample stream; and
on the index sequence 0..63 over an 8-by-8 image it produces the 32
bytes 0x10, 0x32, 0x54, 0x76, 0x98, 0xBA, 0xDC, 0xFE repeated 4
times. -/
theorem agb4_pack_low_high :
    (∀ (data : List Nat) (width : Nat), (∀ d ∈ data, d ≤ 255) →
      agb4_encode_indexes data width
        = some (specPairs ((tileChunks data 8 8 width).flatten))) ∧
    agb4_encode_indexes (List.range 64) 8
      = some [0x10, 0x32, 0x54, 0x76, 0x98, 0xBA, 0xDC, 0xFE,
              0x10, 0x32, 0x54, 0x76, 0x98, 0xBA, 0xDC, 0xFE,
              0x10, 0x32, 0x54, 0x76, 0x98, 0xBA, 0xDC, 0xFE,
              0x10, 0x32, 0x54, 0x76, 0x98, 0xBA, 0xDC, 0xFE] := by
  constructor
  · intro data width hle
    unfold agb4_encode_indexes
    apply agb4_foldl_eq
    · intro t ht
      obtain ⟨i, hi, rfl⟩ := List.mem_map.mp ht
      simp [tileChunk_length]
    · intro t ht d hd
      obtain ⟨i, hi, rfl⟩ := List.mem_map.mp ht
      simp only [tileChunk, List.mem_flatMap, List.mem_map, List.mem_range] at hd
      obtain ⟨py, hpy, px, hpx, rfl⟩ := hd
      exact getD_le hle _
  · decide

/-- Witness for C7's general part at the concrete 0..63 input. -/
theorem agb4_pack_low_high_witness :
    (∀ d ∈ List.range 64, d ≤ 255) ∧
    agb4_encode_indexes (List.range 64) 8
      = some (specPairs ((tileChunks (List.range 64) 8 8 8).flatten)) :=
  ⟨by decide, agb4_pack_low_high.1 (List.range 64) 8 (by decide)⟩

/-- C8: on the index sequence 0..63 over an 8-by-8 image, the
8bpp-tiled encoder (`tsize = 8`) and the 8bpp-chunky encoder
(`tsize = 1`) both emit the identity byte sequence 0..63. -/
theorem agb8_tiled_chunky_identity :
    agb8_encode_indexes 8 (List.range 64) 8 = some (List.range 64) ∧
    agb8_encode_indexes 1 (List.range 64) 8 = some (List.range 64) := by
  constructor <;> decide

end Asmimg
